import Mathlib

set_option maxRecDepth 8000

/-!
Verification of the `b32dec` streaming Base32 decoder (`src/b32dec.c` of the
`decode_passwords` repository).

The driver (`b32dec_entry`, `b32dec_output`) is embedded directly from the C
source.  The decode primitives `base32ToBinary` and `binaryToHexadecimal` live
in the repository's shared support code (`common.h`), which is not part of the
excerpt; they are modelled from the specification, as marked on each
definition.  Input is modelled as the list of characters read from stdin
(NUL-free ASCII text); the single `fwrite` of each chunk is modelled by a
boolean oracle `wOk` indexed by the number of writes performed so far.
-/

/-- The C library predicate `isspace` in the C locale, on ASCII input:
space, horizontal tab, line feed, vertical tab, form feed, carriage return. -/
def isspace (c : Char) : Bool :=
  c = ' ' || c = '\t' || c = '\n' || c = Char.ofNat 11 || c = Char.ofNat 12 || c = '\r'

/-- The latched error states the decoder can set: `INV_B32_DATA` with the
offending character, `INV_B32_SIZE` with the offending chunk length, and
`WRITE_FAILED`. -/
inductive B32Error where
  | invalidData : Char → B32Error
  | invalidSize : Nat → B32Error
  | writeFailed : B32Error
deriving DecidableEq, Repr

/-- Modelled from the spec: the Alphabet Table of the shared decode support
code (not in the excerpt).  The canonical uppercase RFC4648 alphabet maps
`A`..`Z` to 0..25 and `2`..`7` to 26..31; every other character is invalid. -/
def b32Value (c : Char) : Option Nat :=
  if 'A' ≤ c ∧ c ≤ 'Z' then some (c.toNat - 'A'.toNat)
  else if '2' ≤ c ∧ c ≤ '7' then some (c.toNat - '2'.toNat + 26)
  else none

/-- Modelled from the spec: the partial-group size table of the Decode Engine,
mapping a chunk length to its decoded byte count; lengths outside
`{0,2,4,5,7,8}` have no entry. -/
def b32OutBytes : Nat → Option Nat
  | 0 => some 0
  | 2 => some 1
  | 4 => some 2
  | 5 => some 3
  | 7 => some 4
  | 8 => some 5
  | _ => none

/-- Modelled from the spec: fail-fast character validation of the Decode
Engine — the first character not in the alphabet fails with `invalidData`
carrying that character; later characters are not checked. -/
def b32Values : List Char → Except B32Error (List Nat)
  | [] => .ok []
  | c :: cs =>
    match b32Value c with
    | none => .error (.invalidData c)
    | some v => (b32Values cs).map (fun vs => v :: vs)

/-- Modelled from the spec: the bit-packing transform — concatenate the 5-bit
symbol values in chunk order (most-significant bit first) and emit successive
8-bit groups from the most-significant end, discarding trailing alignment
bits. -/
def packBits (vals : List Nat) (nBytes : Nat) : List Nat :=
  let bits := vals.foldl (fun a v => a * 32 + v) 0
  (List.range nBytes).map (fun i => bits / 2 ^ (5 * vals.length - 8 * (i + 1)) % 256)

/-- Modelled from the spec: `base32ToBinary` of the shared support code (not
in the excerpt).  Length check first (failing with `invalidSize` and the
offending length), a length-0 chunk returns the empty byte sequence with no
further processing, then character validation, then bit-packing. -/
def base32ToBinary (chunk : List Char) : Except B32Error (List Nat) :=
  match b32OutBytes chunk.length with
  | none => .error (.invalidSize chunk.length)
  | some n =>
    if n = 0 then .ok []
    else (b32Values chunk).map (fun vals => packBits vals n)

/-- Modelled from the spec: lowercase hexadecimal digit of a nibble. -/
def hexDigitChar (n : Nat) : Char :=
  if n < 10 then Char.ofNat (48 + n) else Char.ofNat (97 + (n - 10))

/-- Modelled from the spec: `binaryToHexadecimal` of the shared support code —
each byte becomes two lowercase hexadecimal digits, most-significant nibble
first; the transform is total and never fails. -/
def binaryToHexadecimal (bytes : List Nat) : List Char :=
  bytes.flatMap (fun b => [hexDigitChar (b / 16), hexDigitChar (b % 16)])

/-- `b32dec_output` (src/b32dec.c, lines 38-78): decode one chunk; on a
latched decode error report and `exit(EXIT_FAILURE)` (modelled as `.error`);
otherwise optionally hex-format and `fwrite` the result, a failed write being
fatal as `writeFailed`.  `writeOk` tells whether the single `fwrite` call
succeeds; the returned list is what was written to stdout, as bytes. -/
def b32dec_output (base32 : List Char) (hexOutput : Bool) (writeOk : Bool) :
    Except B32Error (List Nat) :=
  match base32ToBinary base32 with
  | .error e => .error e
  | .ok binary =>
    let out := if hexOutput then (binaryToHexadecimal binary).map Char.toNat else binary
    if writeOk then .ok out else .error .writeFailed

/-- The chunk-accumulation loop of `b32dec_entry` (src/b32dec.c, lines
117-138): whitespace characters are skipped, others are appended to the
current chunk `acc` (`base32[convUsed++]`); on reaching length 8 the chunk is
flushed and the accumulator resets; a non-empty leftover is flushed once at
end of stream.  Returns the sequence of chunks handed to `b32dec_output`. -/
def b32dec_chunksAux : List Char → List Char → List (List Char)
  | [], acc => if acc.isEmpty then [] else [acc]
  | c :: rest, acc =>
    if isspace c then b32dec_chunksAux rest acc
    else if (acc ++ [c]).length = 8 then (acc ++ [c]) :: b32dec_chunksAux rest []
    else b32dec_chunksAux rest (acc ++ [c])

/-- The chunk stream of a whole input, starting from the empty accumulator. -/
def b32dec_chunks (input : List Char) : List (List Char) :=
  b32dec_chunksAux input []

/-- The driver's processing of the chunk stream: each chunk goes through
`b32dec_output` in order; the first error halts the run (the `exit` calls in
the C code), discarding nothing already written.  `i` counts `fwrite` calls
made so far, indexing into the write oracle.  Returns the concatenated bytes
written to stdout and the first error, if any. -/
def processChunks (hexOutput : Bool) (wOk : Nat → Bool) :
    Nat → List (List Char) → List Nat × Option B32Error
  | _, [] => ([], none)
  | i, c :: cs =>
    match b32dec_output c hexOutput (wOk i) with
    | .error e => ([], some e)
    | .ok out =>
      let r := processChunks hexOutput wOk (i + 1) cs
      (out ++ r.1, r.2)

/-- `b32dec_entry` (src/b32dec.c, lines 80-141) after option parsing: run the
accumulator over all of stdin and decode each chunk; returns the bytes written
to stdout and the process exit status (`EXIT_SUCCESS = 0`, or
`EXIT_FAILURE = 1` via `exit` on the first error). -/
def b32dec_entry (input : List Char) (hexOutput : Bool) (wOk : Nat → Bool) :
    List Nat × Nat :=
  let r := processChunks hexOutput wOk 0 (b32dec_chunks input)
  (r.1, if r.2.isSome then 1 else 0)

/-- The first error of a run, if any (the latched error state when the
process terminates). -/
def b32dec_runError (input : List Char) (hexOutput : Bool) (wOk : Nat → Bool) :
    Option B32Error :=
  (processChunks hexOutput wOk 0 (b32dec_chunks input)).2

/-- The Block Accumulator as the spec words it (for refinement): drop
whitespace, then group the remaining characters into chunks of 8, a final
non-empty leftover of 1-7 characters forming one last chunk.  This definition
follows the spec text; `b32dec_chunks` follows the source. -/
def chunkGroupsSpec (s : List Char) : List (List Char) :=
  if _h : 8 ≤ s.length then s.take 8 :: chunkGroupsSpec (s.drop 8)
  else if s.isEmpty then [] else [s]
termination_by s.length
decreasing_by simp only [List.length_drop]; omega

/-- Instrumentation of the accumulation loop: the largest value the buffer
index `convUsed` ever reaches during a run started with index `used`
(every write into `base32` happens at an index no larger than this). -/
def b32dec_maxUsedAux : List Char → Nat → Nat
  | [], used => used
  | c :: rest, used =>
    if isspace c then b32dec_maxUsedAux rest used
    else if used + 1 = 8 then max (used + 1) (b32dec_maxUsedAux rest 0)
    else max (used + 1) (b32dec_maxUsedAux rest (used + 1))

/-- Per-chunk success of a run over a chunk list: every chunk decodes and its
`fwrite` succeeds. -/
def chunksOk (hexOutput : Bool) (wOk : Nat → Bool) : Nat → List (List Char) → Bool
  | _, [] => true
  | i, c :: cs =>
    match b32dec_output c hexOutput (wOk i) with
    | .error _ => false
    | .ok _ => chunksOk hexOutput wOk (i + 1) cs

lemma chunksAux_eq_spec (input : List Char) :
    ∀ acc : List Char, acc.length < 8 →
      b32dec_chunksAux input acc =
        chunkGroupsSpec (acc ++ input.filter (fun c => !isspace c)) := by
  induction input with
  | nil =>
    intro acc hacc
    rw [b32dec_chunksAux, List.filter_nil, List.append_nil, chunkGroupsSpec]
    simp [Nat.not_le.mpr hacc]
  | cons c rest ih =>
    intro acc hacc
    rw [b32dec_chunksAux]
    by_cases hc : isspace c
    · simp only [hc, if_true, List.filter_cons, Bool.not_true, if_false]
      simpa using ih acc hacc
    · simp only [hc, if_false, List.filter_cons, Bool.not_false, if_true]
      by_cases hlen : (acc ++ [c]).length = 8
      · simp only [hlen, if_true]
        rw [chunkGroupsSpec]
        have h8 : 8 ≤ (acc ++ c :: List.filter (fun c => !isspace c) rest).length := by
          have : acc ++ c :: List.filter (fun c => !isspace c) rest =
              (acc ++ [c]) ++ List.filter (fun c => !isspace c) rest := by simp
          rw [this, List.length_append, hlen]; omega
        rw [dif_pos h8]
        have hsplit : acc ++ c :: List.filter (fun c => !isspace c) rest =
            (acc ++ [c]) ++ List.filter (fun c => !isspace c) rest := by simp
        rw [hsplit, ← hlen, List.take_left, List.drop_left]
        rw [ih [] (by simp)]
        simp
      · have hlt : (acc ++ [c]).length < 8 := by
          rw [List.length_append] at hlen ⊢
          simp only [List.length_singleton] at hlen ⊢
          omega
        simp only [hlen, if_false]
        rw [ih (acc ++ [c]) hlt]
        simp

lemma chunks_eq_spec (input : List Char) :
    b32dec_chunks input = chunkGroupsSpec (input.filter (fun c => !isspace c)) := by
  simpa using chunksAux_eq_spec input [] (by simp)

lemma chunkGroupsSpec_length (s : List Char) :
    ∀ ch ∈ chunkGroupsSpec s, 1 ≤ ch.length ∧ ch.length ≤ 8 := by
  induction s using chunkGroupsSpec.induct with
  | case1 s h ih =>
    rw [chunkGroupsSpec, dif_pos h]
    intro ch hch
    rcases List.mem_cons.mp hch with h1 | h2
    · subst h1
      have htake : (List.take 8 s).length = 8 := by
        simp [List.length_take]
        omega
      omega
    · exact ih ch h2
  | case2 s h hemp =>
    rw [chunkGroupsSpec, dif_neg h, if_pos hemp]
    intro ch hch
    simp at hch
  | case3 s h hemp =>
    rw [chunkGroupsSpec, dif_neg h, if_neg hemp]
    intro ch hch
    rcases List.mem_singleton.mp hch with rfl
    constructor
    · rcases List.isEmpty_iff.not.mp hemp with hne
      have : ch ≠ [] := by
        intro hc; exact hne (by simp [hc])
      have := List.length_pos.mpr this
      omega
    · omega

lemma chunkGroupsSpec_dropLast (s : List Char) :
    ∀ ch ∈ (chunkGroupsSpec s).dropLast, ch.length = 8 := by
  induction s using chunkGroupsSpec.induct with
  | case1 s h ih =>
    rw [chunkGroupsSpec, dif_pos h]
    rcases heq : chunkGroupsSpec (s.drop 8) with _ | ⟨a, l⟩
    · simp
    · rw [List.dropLast_cons_of_ne_nil (by simp)]
      intro ch hch
      rcases List.mem_cons.mp hch with rfl | h2
      · simp [List.length_take]; omega
      · exact ih ch (by rw [heq]; exact h2)
  | case2 s h hemp =>
    rw [chunkGroupsSpec, dif_neg h, if_pos hemp]
    intro ch hch
    simp at hch
  | case3 s h hemp =>
    rw [chunkGroupsSpec, dif_neg h, if_neg hemp]
    intro ch hch
    simp at hch

lemma chunkGroupsSpec_mod8 (s : List Char) (hmod : s.length % 8 = 0) :
    ∀ ch ∈ chunkGroupsSpec s, ch.length = 8 := by
  induction s using chunkGroupsSpec.induct with
  | case1 s h ih =>
    rw [chunkGroupsSpec, dif_pos h]
    intro ch hch
    rcases List.mem_cons.mp hch with rfl | h2
    · simp [List.length_take]; omega
    · exact ih (by simp only [List.length_drop]; omega) ch h2
  | case2 s h hemp =>
    rw [chunkGroupsSpec, dif_neg h, if_pos hemp]
    intro ch hch
    simp at hch
  | case3 s h hemp =>
    have hpos : 0 < s.length := List.length_pos.mpr (List.isEmpty_iff.not.mp hemp)
    exact absurd hmod (by omega)

lemma maxUsedAux_le (input : List Char) :
    ∀ used, used < 8 → b32dec_maxUsedAux input used ≤ 8 := by
  induction input with
  | nil => intro used h; rw [b32dec_maxUsedAux]; omega
  | cons c rest ih =>
    intro used h
    rw [b32dec_maxUsedAux]
    by_cases hc : isspace c = true
    · rw [if_pos hc]; exact ih used h
    · rw [if_neg hc]
      by_cases h8 : used + 1 = 8
      · rw [if_pos h8]
        exact Nat.max_le.mpr ⟨by omega, ih 0 (by omega)⟩
      · rw [if_neg h8]
        exact Nat.max_le.mpr ⟨by omega, ih (used + 1) (by omega)⟩

lemma processChunks_err_none_iff (hexOutput : Bool) (wOk : Nat → Bool) :
    ∀ (cs : List (List Char)) (i : Nat),
      (processChunks hexOutput wOk i cs).2 = none ↔ chunksOk hexOutput wOk i cs = true := by
  intro cs
  induction cs with
  | nil => intro i; simp [processChunks, chunksOk]
  | cons c cs ih =>
    intro i
    rw [processChunks, chunksOk]
    rcases hout : b32dec_output c hexOutput (wOk i) with e | out
    · simp
    · simpa using ih (i + 1)

lemma processChunks_append_halt (hexOutput : Bool) (wOk : Nat → Bool) :
    ∀ (pre : List (List Char)) (i : Nat) (suf : List (List Char)) (e : B32Error),
      (processChunks hexOutput wOk i pre).2 = some e →
      processChunks hexOutput wOk i (pre ++ suf) = processChunks hexOutput wOk i pre := by
  intro pre
  induction pre with
  | nil => intro i suf e h; simp [processChunks] at h
  | cons c cs ih =>
    intro i suf e h
    rw [processChunks] at h ⊢
    rw [List.cons_append, processChunks]
    rcases hout : b32dec_output c hexOutput (wOk i) with e2 | out
    · simp [hout]
    · simp only [hout] at h ⊢
      have h2 : (processChunks hexOutput wOk (i + 1) cs).2 = some e := by
        simpa using h
      rw [ih (i + 1) suf e h2]

lemma b32Values_ok_of_valid (chunk : List Char) :
    (∀ c ∈ chunk, (b32Value c).isSome) → ∃ vals, b32Values chunk = .ok vals := by
  induction chunk with
  | nil => intro _; exact ⟨[], rfl⟩
  | cons c cs ih =>
    intro h
    have hc : (b32Value c).isSome := h c (List.mem_cons_self c cs)
    rcases Option.isSome_iff_exists.mp hc with ⟨v, hv⟩
    rcases ih (fun x hx => h x (List.mem_cons_of_mem c hx)) with ⟨vals, hvals⟩
    refine ⟨v :: vals, ?_⟩
    rw [b32Values, hv, hvals]
    rfl

lemma base32ToBinary_pos (chunk : List Char) (n : Nat)
    (hn : b32OutBytes chunk.length = some n) (hn0 : n ≠ 0) :
    base32ToBinary chunk = (b32Values chunk).map (fun vals => packBits vals n) := by
  rw [base32ToBinary, hn]
  exact if_neg hn0

lemma base32ToBinary_zero (chunk : List Char)
    (hn : b32OutBytes chunk.length = some 0) :
    base32ToBinary chunk = .ok [] := by
  rw [base32ToBinary, hn]
  rfl

lemma b32OutBytes_none (L : Nat) (h : L ∉ ([0, 2, 4, 5, 7, 8] : List Nat)) :
    b32OutBytes L = none := by
  rcases L with _ | _ | _ | _ | _ | _ | _ | _ | _ | L
  · simp at h
  · rfl
  · simp at h
  · rfl
  · simp at h
  · simp at h
  · rfl
  · simp at h
  · simp at h
  · rfl

lemma b32Values_length (chunk : List Char) :
    ∀ vals, b32Values chunk = .ok vals → vals.length = chunk.length := by
  induction chunk with
  | nil =>
    intro vals h
    rw [b32Values] at h
    cases h
    rfl
  | cons c cs ih =>
    intro vals h
    rw [b32Values] at h
    rcases hv : b32Value c with _ | v
    · rw [hv] at h; cases h
    · rw [hv] at h
      rcases hcs : b32Values cs with e | vs
      · rw [hcs] at h; cases h
      · rw [hcs] at h
        cases h
        simp [ih vs hcs]

lemma entry_insert_ws (s1 s2 : List Char) (ws : Char) (hexOutput : Bool)
    (wOk : Nat → Bool) (hws : isspace ws = true) :
    b32dec_entry (s1 ++ ws :: s2) hexOutput wOk = b32dec_entry (s1 ++ s2) hexOutput wOk := by
  have hfilter : (s1 ++ ws :: s2).filter (fun c => !isspace c) =
      (s1 ++ s2).filter (fun c => !isspace c) := by
    simp [List.filter_append, List.filter_cons, hws]
  simp only [b32dec_entry, chunks_eq_spec, hfilter]

/-- C1 (counterexample): the claim as stated is false — the chunk `"11"` has
length 2, which is in the size table, yet `decode` does not succeed: it fails
with `invalidData` because `'1'` is not in the alphabet. -/
theorem c1_counterexample :
    (['1', '1'] : List Char).length = 2 ∧
    b32OutBytes 2 = some 1 ∧
    base32ToBinary ['1', '1'] = .error (.invalidData '1') :=
  ⟨rfl, rfl, rfl⟩

/-- C1 (amended): the size table maps 0,2,4,5,7,8 to 0,1,2,3,4,5 output bytes;
a chunk whose length is in the table AND all of whose characters are in the
alphabet decodes to exactly the tabulated number of bytes; a chunk whose
length is not in the table fails with `invalidSize` carrying that length. -/
theorem c1_decode_length (chunk : List Char) :
    (b32OutBytes 0 = some 0 ∧ b32OutBytes 2 = some 1 ∧ b32OutBytes 4 = some 2 ∧
     b32OutBytes 5 = some 3 ∧ b32OutBytes 7 = some 4 ∧ b32OutBytes 8 = some 5) ∧
    (∀ n, b32OutBytes chunk.length = some n → (∀ c ∈ chunk, (b32Value c).isSome) →
      ∃ bs, base32ToBinary chunk = .ok bs ∧ bs.length = n) ∧
    (chunk.length ∉ ([0, 2, 4, 5, 7, 8] : List Nat) →
      base32ToBinary chunk = .error (.invalidSize chunk.length)) := by
  refine ⟨by decide, ?_, ?_⟩
  · intro n hn hvalid
    rcases b32Values_ok_of_valid chunk hvalid with ⟨vals, hvals⟩
    by_cases hn0 : n = 0
    · subst hn0
      exact ⟨[], base32ToBinary_zero chunk hn, rfl⟩
    · rw [base32ToBinary_pos chunk n hn hn0, hvals]
      exact ⟨packBits vals n, rfl, by simp [packBits]⟩
  · intro h
    rw [base32ToBinary, b32OutBytes_none _ h]

/-- C1 witness: the amended theorem applied at concrete chunks — `"MY"` (valid
length 2, valid characters) decodes to 1 byte, and `"ABC"` (length 3, not in
the table) fails with `invalidSize 3`. -/
theorem c1_witness :
    (∃ bs, base32ToBinary ['M', 'Y'] = .ok bs ∧ bs.length = 1) ∧
    base32ToBinary ['A', 'B', 'C'] = .error (.invalidSize 3) :=
  ⟨(c1_decode_length ['M', 'Y']).2.1 1 (by decide) (by decide),
   (c1_decode_length ['A', 'B', 'C']).2.2 (by decide)⟩

/-- C2: decoding follows the bit-packing rule — for any chunk of valid length
and valid characters, the output bytes are the successive 8-bit groups, taken
most-significant first, of the concatenation of the 5-bit symbol values in
chunk order (trailing alignment bits discarded); in particular the program
maps input `"NBSWY3DP"` (no hex flag) to the ASCII bytes of `"hello"` and
input `"MY"` (no hex flag) to the single byte `0x66 = 102`. -/
theorem c2_bit_packing :
    (∀ (chunk : List Char) (vals : List Nat) (n : Nat),
       b32OutBytes chunk.length = some n → n ≠ 0 → b32Values chunk = .ok vals →
       base32ToBinary chunk =
         .ok ((List.range n).map (fun i =>
           vals.foldl (fun a v => a * 32 + v) 0 / 2 ^ (5 * chunk.length - 8 * (i + 1)) % 256))) ∧
    b32dec_entry "NBSWY3DP".toList false (fun _ => true) = ("hello".toList.map Char.toNat, 0) ∧
    b32dec_entry "MY".toList false (fun _ => true) = ([102], 0) := by
  refine ⟨?_, by decide, by decide⟩
  intro chunk vals n hn hn0 hvals
  rw [base32ToBinary_pos chunk n hn hn0, hvals]
  rw [Except.map, packBits]
  rw [b32Values_length chunk vals hvals]

/-- C2 witness: the bit-packing rule applied at the concrete chunk `"MY"`
(symbol values 12 and 24, one output byte). -/
theorem c2_witness :
    base32ToBinary "MY".toList =
      .ok ((List.range 1).map (fun i =>
        ([12, 24] : List Nat).foldl (fun a v => a * 32 + v) 0 /
          2 ^ (5 * "MY".toList.length - 8 * (i + 1)) % 256)) :=
  c2_bit_packing.1 "MY".toList [12, 24] 1 (by decide) (by decide) (by rfl)

/-- C3: the accumulator refines the spec's grouping — the sequence of chunks
handed to the decoder is exactly the whitespace-filtered input stream split
into consecutive groups of 8, followed by the non-empty leftover (length 1-7)
exactly once; hence every chunk is decoded exactly once, in stream order. -/
theorem c3_chunk_stream (input : List Char) :
    b32dec_chunks input = chunkGroupsSpec (input.filter (fun c => !isspace c)) :=
  chunks_eq_spec input

/-- C4: whitespace transparency — inserting a whitespace character anywhere in
the input stream (including mid-chunk) leaves the program's output and exit
status unchanged; in particular `"NB SW\nY3 DP"` produces the same result as
`"NBSWY3DP"`. -/
theorem c4_whitespace_transparent :
    (∀ (s1 s2 : List Char) (ws : Char) (hexOutput : Bool) (wOk : Nat → Bool),
       isspace ws = true →
       b32dec_entry (s1 ++ ws :: s2) hexOutput wOk = b32dec_entry (s1 ++ s2) hexOutput wOk) ∧
    b32dec_entry "NB SW\nY3 DP".toList false (fun _ => true) =
      b32dec_entry "NBSWY3DP".toList false (fun _ => true) := by
  refine ⟨?_, by decide⟩
  intro s1 s2 ws hexOutput wOk hws
  exact entry_insert_ws s1 s2 ws hexOutput wOk hws

/-- C4 witness: the transparency theorem applied at a concrete insertion — a
space inserted mid-chunk into `"NBSWY3DP"`. -/
theorem c4_witness :
    b32dec_entry (['N', 'B'] ++ ' ' :: "SWY3DP".toList) false (fun _ => true) =
      b32dec_entry (['N', 'B'] ++ "SWY3DP".toList) false (fun _ => true) :=
  c4_whitespace_transparent.1 ['N', 'B'] "SWY3DP".toList ' ' false (fun _ => true) (by decide)

/-- C5: hex formatting — `binaryToHexadecimal` always produces exactly 2
characters per byte, every produced character is a lowercase hexadecimal
digit with the most-significant nibble first, and with the hex flag set the
bytes written for a successfully decoded chunk are exactly
`toHex(decode(chunk))`; the formatting step itself never fails. -/
theorem c5_hex_output :
    (∀ bytes : List Nat, (binaryToHexadecimal bytes).length = 2 * bytes.length) ∧
    (∀ b : Nat, b < 256 →
       binaryToHexadecimal [b] = [hexDigitChar (b / 16), hexDigitChar (b % 16)] ∧
       hexDigitChar (b / 16) ∈ "0123456789abcdef".toList ∧
       hexDigitChar (b % 16) ∈ "0123456789abcdef".toList) ∧
    (∀ (chunk : List Char) (bytes : List Nat), base32ToBinary chunk = .ok bytes →
       b32dec_output chunk true true = .ok ((binaryToHexadecimal bytes).map Char.toNat)) := by
  have h16 : ∀ n < 16, hexDigitChar n ∈ "0123456789abcdef".toList := by decide
  refine ⟨?_, ?_, ?_⟩
  · intro bytes
    induction bytes with
    | nil => rfl
    | cons b bs ih =>
      simp only [binaryToHexadecimal] at ih ⊢
      simp [List.flatMap_cons, ih]
      omega
  · intro b hb
    exact ⟨rfl, h16 _ (by omega), h16 _ (by omega)⟩
  · intro chunk bytes hok
    rw [b32dec_output, hok]
    rfl

/-- C5 witness: the hex contract applied at the concrete byte `0x66 = 102`
and the concrete chunk `"MY"` (spec Scenario 3: hex output `"66"`). -/
theorem c5_witness :
    (binaryToHexadecimal [102] = [hexDigitChar 6, hexDigitChar 6] ∧
     hexDigitChar 6 ∈ "0123456789abcdef".toList ∧
     hexDigitChar 6 ∈ "0123456789abcdef".toList) ∧
    b32dec_output "MY".toList true true = .ok ((binaryToHexadecimal [102]).map Char.toNat) :=
  ⟨c5_hex_output.2.1 102 (by decide), c5_hex_output.2.2 "MY".toList [102] (by rfl)⟩

/-- C6: exit-status mapping — the process exits 0 exactly when every chunk of
the (whitespace-filtered, regrouped) stream decodes and writes successfully;
it exits non-zero exactly when the run's latched error is set, and that error
is always one of invalid data, invalid size, or write failure. -/
theorem c6_exit_status (input : List Char) (hexOutput : Bool) (wOk : Nat → Bool) :
    ((b32dec_entry input hexOutput wOk).2 = 0 ↔
       chunksOk hexOutput wOk 0 (chunkGroupsSpec (input.filter (fun c => !isspace c))) = true) ∧
    ((b32dec_entry input hexOutput wOk).2 ≠ 0 ↔
       b32dec_runError input hexOutput wOk ≠ none) ∧
    (∀ e : B32Error, b32dec_runError input hexOutput wOk = some e →
       (∃ c, e = .invalidData c) ∨ (∃ L, e = .invalidSize L) ∨ e = .writeFailed) := by
  refine ⟨?_, ?_, ?_⟩
  · rw [← processChunks_err_none_iff hexOutput wOk
        (chunkGroupsSpec (input.filter (fun c => !isspace c))) 0]
    simp only [b32dec_entry, chunks_eq_spec]
    cases herr : (processChunks hexOutput wOk 0
        (chunkGroupsSpec (input.filter (fun c => !isspace c)))).2 with
    | none => simp [herr]
    | some e => simp [herr]
  · simp only [b32dec_entry, b32dec_runError]
    cases herr : (processChunks hexOutput wOk 0 (b32dec_chunks input)).2 with
    | none => simp [herr]
    | some e => simp [herr]
  · intro e _
    cases e with
    | invalidData c => exact Or.inl ⟨c, rfl⟩
    | invalidSize L => exact Or.inr (Or.inl ⟨L, rfl⟩)
    | writeFailed => exact Or.inr (Or.inr rfl)

/-- C6 witness: the taxonomy part applied at the concrete failing input
`"ABC"`, whose run error is `invalidSize 3`. -/
theorem c6_witness :
    (∃ c, B32Error.invalidSize 3 = B32Error.invalidData c) ∨
    (∃ L, B32Error.invalidSize 3 = B32Error.invalidSize L) ∨
    B32Error.invalidSize 3 = B32Error.writeFailed :=
  (c6_exit_status "ABC".toList false (fun _ => true)).2.2 (.invalidSize 3) (by rfl)

/-- C7: fatal on first error with no partial output for the failing chunk —
a chunk that fails (decode error or write failure) contributes no output
bytes and every later chunk is ignored; a run that has halted with an error
is unaffected by any further chunks; in particular input `"11111111"` fails
with `invalidData '1'`, writes nothing, and exits non-zero (Scenario 4). -/
theorem c7_fatal_first_error :
    (∀ (hexOutput : Bool) (wOk : Nat → Bool) (i : Nat) (c : List Char)
       (rest : List (List Char)) (e : B32Error),
       b32dec_output c hexOutput (wOk i) = .error e →
       processChunks hexOutput wOk i (c :: rest) = ([], some e)) ∧
    (∀ (hexOutput : Bool) (wOk : Nat → Bool) (i : Nat) (pre suf : List (List Char))
       (e : B32Error),
       (processChunks hexOutput wOk i pre).2 = some e →
       processChunks hexOutput wOk i (pre ++ suf) = processChunks hexOutput wOk i pre) ∧
    b32dec_entry "11111111".toList false (fun _ => true) = ([], 1) ∧
    b32dec_runError "11111111".toList false (fun _ => true) = some (.invalidData '1') := by
  refine ⟨?_, ?_, by decide, by rfl⟩
  · intro hexOutput wOk i c rest e h
    rw [processChunks, h]
  · intro hexOutput wOk i pre suf e h
    exact processChunks_append_halt hexOutput wOk pre i suf e h

/-- C7 witness: the halt theorem applied concretely — the invalid chunk
`"11111111"` halts the run before a following valid chunk `"MY"`. -/
theorem c7_witness :
    processChunks false (fun _ => true) 0 ["11111111".toList, "MY".toList] =
      ([], some (.invalidData '1')) :=
  c7_fatal_first_error.1 false (fun _ => true) 0 "11111111".toList ["MY".toList]
    (.invalidData '1') (by rfl)

/-- C8 (counterexample): the claim as stated is false — the input
`"11111111"` has 8 non-whitespace characters (a multiple of 8), yet the
program exits with a non-zero status, because the full chunk itself fails. -/
theorem c8_counterexample :
    ("11111111".toList.filter (fun c => !isspace c)).length % 8 = 0 ∧
    (b32dec_entry "11111111".toList false (fun _ => true)).2 ≠ 0 := by decide

/-- C8 (amended): when the non-whitespace characters number a multiple of 8,
every chunk handed to the decoder has length exactly 8 — the length-0
end-of-stream leftover is never handed over, so it produces no output and
raises no error; and a stream with no non-whitespace characters at all
(including the empty stream) writes nothing and exits with status 0. -/
theorem c8_empty_final_chunk (input : List Char) (hexOutput : Bool) (wOk : Nat → Bool) :
    ((input.filter (fun c => !isspace c)).length % 8 = 0 →
       ∀ ch ∈ b32dec_chunks input, ch.length = 8) ∧
    (input.filter (fun c => !isspace c) = [] →
       b32dec_entry input hexOutput wOk = ([], 0)) := by
  constructor
  · intro hmod
    rw [chunks_eq_spec]
    exact chunkGroupsSpec_mod8 _ hmod
  · intro hnil
    rw [b32dec_entry, chunks_eq_spec, hnil]
    rw [chunkGroupsSpec]
    simp [processChunks]

/-- C8 witness: the amended theorem applied concretely — `"NBSWY3DP"` (8
non-whitespace characters) yields only full chunks, and the all-whitespace
stream `" \n"` writes nothing and exits 0. -/
theorem c8_witness :
    (∀ ch ∈ b32dec_chunks "NBSWY3DP".toList, ch.length = 8) ∧
    b32dec_entry [' ', '\n'] false (fun _ => true) = ([], 0) :=
  ⟨(c8_empty_final_chunk "NBSWY3DP".toList false (fun _ => true)).1 (by decide),
   (c8_empty_final_chunk [' ', '\n'] false (fun _ => true)).2 (by decide)⟩

/-- C9: chunk-length invariant — every chunk handed to the decoder has length
between 1 and 8, every chunk except possibly the last has length exactly 8
(a full chunk is flushed immediately), and the buffer index `convUsed` never
exceeds 8, so all writes into the 9-byte `base32` buffer (8 characters plus
the terminator slot) stay in bounds. -/
theorem c9_chunk_invariant (input : List Char) :
    (∀ ch ∈ b32dec_chunks input, 1 ≤ ch.length ∧ ch.length ≤ 8) ∧
    (∀ ch ∈ (b32dec_chunks input).dropLast, ch.length = 8) ∧
    b32dec_maxUsedAux input 0 ≤ 8 := by
  refine ⟨?_, ?_, maxUsedAux_le input 0 (by omega)⟩
  · rw [chunks_eq_spec]
    exact chunkGroupsSpec_length _
  · rw [chunks_eq_spec]
    exact chunkGroupsSpec_dropLast _

/-- C9 witness: the invariant applied at the concrete input `"NBSWY3DPMY"`,
whose leftover chunk is `"MY"`. -/
theorem c9_witness :
    (1 ≤ ("MY".toList).length ∧ ("MY".toList).length ≤ 8) ∧
    b32dec_maxUsedAux "NBSWY3DPMY".toList 0 ≤ 8 :=
  ⟨(c9_chunk_invariant "NBSWY3DPMY".toList).1 "MY".toList (by decide),
   (c9_chunk_invariant "NBSWY3DPMY".toList).2.2⟩

/-- C10: the accumulator discards a character exactly when the C `isspace`
predicate holds — so vertical tab (0x0B) and form feed (0x0C) are also
transparent and never count toward chunk length, in addition to space, tab,
newline and carriage return. -/
theorem c10_isspace_extended :
    (∀ c : Char, isspace c = true ↔
       (c = ' ' ∨ c = '\t' ∨ c = '\n' ∨ c = Char.ofNat 11 ∨ c = Char.ofNat 12 ∨ c = '\r')) ∧
    isspace (Char.ofNat 11) = true ∧
    isspace (Char.ofNat 12) = true ∧
    (∀ (s1 s2 : List Char) (hexOutput : Bool) (wOk : Nat → Bool),
       b32dec_entry (s1 ++ Char.ofNat 11 :: s2) hexOutput wOk =
         b32dec_entry (s1 ++ s2) hexOutput wOk ∧
       b32dec_entry (s1 ++ Char.ofNat 12 :: s2) hexOutput wOk =
         b32dec_entry (s1 ++ s2) hexOutput wOk) ∧
    b32dec_chunks [Char.ofNat 11, Char.ofNat 12] = [] := by
  refine ⟨?_, by decide, by decide, ?_, by decide⟩
  · intro c
    simp only [isspace, Bool.or_eq_true, decide_eq_true_eq]
    tauto
  · intro s1 s2 hexOutput wOk
    exact ⟨entry_insert_ws s1 s2 (Char.ofNat 11) hexOutput wOk (by decide),
           entry_insert_ws s1 s2 (Char.ofNat 12) hexOutput wOk (by decide)⟩
